import Mathlib

/-!
Shallow embedding of the mysticeti-core block-handler layer
(src/mysticeti-core/src/block_handler.rs and src/mysticeti-core/src/stat.rs).

Machine integers (u64 transaction ids, u32 length casts) are modelled as Nat,
with an explicit reduction modulo 2 ^ 64 or 2 ^ 32 where the Rust code can
overflow or truncate.  Fallible Rust code (assert!, unwrap, division by zero)
is modelled with Option / Except.  The collaborator modules that are not part
of the provided sources (TransactionAggregator, CommitInterpreter, BlockStore,
the types module) are modelled from the specification, as marked on each
definition.
-/

/-- Modelled from the spec: a Committee is a fixed set of 3f+1 equally
weighted authorities; it is represented by its fault bound f. -/
structure Committee where
  f : Nat
deriving DecidableEq

/-- Modelled from the spec: quorum threshold is 2f+1 votes out of 3f+1. -/
def Committee.quorum_threshold (c : Committee) : Nat := 2 * c.f + 1

/-- Modelled from the spec: a BlockReference is (authority, round, digest). -/
structure BlockReference where
  authority : Nat
  round : Nat
  digest : Nat
deriving DecidableEq

/-- Modelled from the spec (types module is not in the sources): a transaction
payload is a byte sequence. -/
abbrev Transaction := List Nat

/-- Little-endian byte encoding of a u64, as Transaction::new(id.to_le_bytes())
produces in handle_blocks. -/
def natToLeBytes (n : Nat) : List Nat :=
  (List.range 8).map fun i => n / 256 ^ i % 256

/-- Modelled from the spec: BaseStatement is a variant over
Share(transaction_id, transaction_payload); vote semantics are implicit in the
presence of a transaction id inside a later block. -/
inductive BaseStatement where
  | Share (id : Nat) (tx : Transaction)
deriving DecidableEq

/-- Modelled from the spec: a StatementBlock carries author, round, parent
references and an ordered sequence of base statements; its identity is a
digest over its contents, modelled as a stored field. -/
structure StatementBlock where
  author : Nat
  round : Nat
  parents : List BlockReference
  statements : List BaseStatement
  digest : Nat
deriving DecidableEq

/-- Reference of a block: (author, round, digest). -/
def StatementBlock.reference (b : StatementBlock) : BlockReference :=
  ⟨b.author, b.round, b.digest⟩

/-! ## TransactionAggregator (modelled from the spec, section 4.4) -/

/-- Modelled from the spec: per-transaction vote record, the set of distinct
authorities that have echoed the id plus an already-certified flag. -/
structure TxVotes where
  votes : List Nat
  certified : Bool
deriving DecidableEq

/-- Modelled from the spec: the aggregator state is a mapping from transaction
id to its vote record; entries are never removed.  Represented as an
association list in insertion order. -/
abbrev AggState := List (Nat × TxVotes)

/-- Lookup of a transaction id in the aggregator mapping. -/
def aggLookup (s : AggState) (id : Nat) : Option TxVotes :=
  match s with
  | [] => none
  | (k, v) :: rest => if k = id then some v else aggLookup rest id

/-- Update (or insert at the end) of a transaction id in the mapping. -/
def aggSet (s : AggState) (id : Nat) (v : TxVotes) : AggState :=
  match s with
  | [] => [(id, v)]
  | (k, w) :: rest => if k = id then (k, v) :: rest else (k, w) :: aggSet rest id v

/-- Modelled from the spec: add one echoing authority to a transaction id; the
returned flag reports whether the id crossed the quorum threshold for the
first time (entries transition to certified when the echoing authority set
reaches quorum, and stay certified forever). -/
def TransactionAggregator.addVote (s : AggState) (id author : Nat) (c : Committee) :
    AggState × Bool :=
  match aggLookup s id with
  | none =>
      let cert := decide (c.quorum_threshold ≤ 1)
      (aggSet s id ⟨[author], cert⟩, cert)
  | some e =>
      if author ∈ e.votes then (s, false)
      else
        let votes := e.votes ++ [author]
        if e.certified then (aggSet s id ⟨votes, true⟩, false)
        else
          let cert := decide (c.quorum_threshold ≤ votes.length)
          (aggSet s id ⟨votes, cert⟩, cert)

/-- Modelled from the spec: register(transaction_id, authority, committee)
records a self-echo for a locally originated transaction. -/
def TransactionAggregator.register (s : AggState) (id author : Nat) (c : Committee) :
    AggState :=
  (TransactionAggregator.addVote s id author c).1

/-- Modelled from the spec: walk of the statements of one block; for every
transaction id referenced, the block author is added as an echoing vote; ids
crossing the quorum threshold for the first time are collected, and when a
sink is provided the newly certified statement is queued into it. -/
def TransactionAggregator.processStatements (s : AggState) (author : Nat)
    (stmts : List BaseStatement) (hasSink : Bool) (c : Committee) :
    AggState × List Nat × List BaseStatement :=
  match stmts with
  | [] => (s, [], [])
  | .Share id tx :: rest =>
      let r1 := TransactionAggregator.addVote s id author c
      let r2 := TransactionAggregator.processStatements r1.1 author rest hasSink c
      if r1.2 then
        (r2.1, id :: r2.2.1, (if hasSink then [.Share id tx] else []) ++ r2.2.2)
      else r2

/-- Modelled from the spec: process_block(block, collect_votes, committee)
returns the sequence of newly certified transaction ids; the third component
is what was queued into the optional sink. -/
def TransactionAggregator.process_block (s : AggState) (b : StatementBlock)
    (hasSink : Bool) (c : Committee) : AggState × List Nat × List BaseStatement :=
  TransactionAggregator.processStatements s b.author b.statements hasSink c

/-- Modelled from the spec: is_processed(id) reports whether the id has been
certified. -/
def TransactionAggregator.is_processed (s : AggState) (id : Nat) : Bool :=
  match aggLookup s id with
  | none => false
  | some e => e.certified

/-! ## stat.rs: PreciseHistogram and HistogramSender

The unbounded tokio channel between the HistogramSender clones and the
PreciseHistogram owning the receiver is modelled as a queue of pending points
plus a liveness flag for the consumer side; send on the channel is a pure
state transition that fails (without blocking) exactly when the receiver is
gone. -/

/-- Pending side of the unbounded channel created by histogram(). -/
structure HistChannel where
  queue : List Nat
  receiverAlive : Bool
deriving DecidableEq

/-- PreciseHistogram from stat.rs: the recorded points, their running sum and
the receiving end of the hand-off channel. -/
structure PreciseHistogram where
  points : List Nat
  sum : Nat
  channel : HistChannel
deriving DecidableEq

/-- Empty histogram with a live, empty channel (Default::default()). -/
def PreciseHistogram.default : PreciseHistogram := ⟨[], 0, ⟨[], true⟩⟩

/-- send on the unbounded channel: enqueues when the receiver is alive,
otherwise returns an error flag and leaves the queue unchanged; it never
blocks. -/
def HistChannel.send (ch : HistChannel) (t : Nat) : HistChannel × Bool :=
  if ch.receiverAlive then ({ ch with queue := ch.queue ++ [t] }, true)
  else (ch, false)

/-- HistogramSender::observe from stat.rs: self.sender.send(t).ok() — the send
result is discarded, so the call returns the updated shared state and nothing
else, whatever the consumer state. -/
def HistogramSender.observe (h : PreciseHistogram) (t : Nat) : PreciseHistogram :=
  { h with channel := (h.channel.send t).1 }

/-- PreciseHistogram::observe from stat.rs: push the point and add it to the
running sum. -/
def PreciseHistogram.observe (h : PreciseHistogram) (point : Nat) : PreciseHistogram :=
  { h with points := h.points ++ [point], sum := h.sum + point }

/-- PreciseHistogram::receive_all from stat.rs: drain every pending point of
the channel into the points vector. -/
def PreciseHistogram.receive_all (h : PreciseHistogram) : PreciseHistogram :=
  { h with points := h.points ++ h.channel.queue,
           channel := { h.channel with queue := [] } }

/-- Insertion of one value into a sorted list of points. -/
def insertPoint (x : Nat) (l : List Nat) : List Nat :=
  match l with
  | [] => [x]
  | y :: rest => if x ≤ y then x :: y :: rest else y :: insertPoint x rest

/-- Ascending sort of the points vector (self.points.sort()). -/
def sortPoints (l : List Nat) : List Nat :=
  match l with
  | [] => []
  | x :: rest => insertPoint x (sortPoints rest)

/-- PreciseHistogram::pct1000_index from stat.rs: len * pct1000 / 1000. -/
def pct1000_index (len pct1000 : Nat) : Nat := len * pct1000 / 1000

/-- Loop of PreciseHistogram::pcts: one element lookup per requested
percentile; a failing lookup is the .unwrap() panic, modelled as none. -/
def lookupAll (points : List Nat) (ps : List Nat) : Option (List Nat) :=
  match ps with
  | [] => some []
  | p :: rest =>
      match points.get? (pct1000_index points.length p), lookupAll points rest with
      | some v, some l => some (v :: l)
      | _, _ => none

/-- PreciseHistogram::pcts from stat.rs: drain the channel, return None on an
empty point set, otherwise sort in place and look every requested percentile
up; Except.error is the .unwrap() panic. -/
def PreciseHistogram.pcts (h : PreciseHistogram) (ps : List Nat) :
    PreciseHistogram × Except Unit (Option (List Nat)) :=
  let h1 := h.receive_all
  if h1.points.isEmpty then (h1, .ok none)
  else
    let h2 := { h1 with points := sortPoints h1.points }
    match lookupAll h2.points ps with
    | some l => (h2, .ok (some l))
    | none => (h2, .error ())

/-- PreciseHistogram::pct from stat.rs. -/
def PreciseHistogram.pct (h : PreciseHistogram) (p : Nat) :
    PreciseHistogram × Except Unit (Option Nat) :=
  let r := h.pcts [p]
  (r.1, r.2.map fun o => o.bind List.head?)

/-- PreciseHistogram::avg from stat.rs: None on an empty point set, otherwise
sum divided by the length cast to u32 (cast truncation kept explicit; a zero
divisor is the Rust division-by-zero panic, modelled as Except.error). -/
def PreciseHistogram.avg (h : PreciseHistogram) : Except Unit (Option Nat) :=
  if h.points.isEmpty then .ok none
  else
    let len32 := h.points.length % 2 ^ 32
    if len32 = 0 then .error () else .ok (some (h.sum / len32))

/-! ## RealBlockHandler (block_handler.rs lines 35-94) -/

/-- Modelled from the spec: StdRng from the external rand crate is a
deterministic pseudo-random generator; seed_from_u64 and next_u64 are pure
functions of the seed and the current state.  The concrete update permutation
is a stand-in LCG reduced modulo 2 ^ 64; only its determinism is used. -/
structure StdRng where
  state : Nat
deriving DecidableEq

/-- StdRng::seed_from_u64: a pure function of the seed. -/
def StdRng.seed_from_u64 (seed : Nat) : StdRng := ⟨seed % 2 ^ 64⟩

/-- StdRng::next_u64: a pure function of the generator state. -/
def StdRng.next_u64 (r : StdRng) : Nat × StdRng :=
  let v := (r.state * 6364136223846793005 + 1442695040888963407) % 2 ^ 64
  (v, ⟨v⟩)

/-- RealBlockHandler from block_handler.rs.  The shared transaction_time map
is an association list from transaction id to the instant it was shared; the
certified-transaction write-through log of the production aggregator is an
external persistence collaborator and carries no state the handler reads, so
it is not represented. -/
structure RealBlockHandler where
  transaction_votes : AggState
  transaction_time : List (Nat × Nat)
  committee : Committee
  authority : Nat
  transaction_certified_latency : PreciseHistogram
  rng : StdRng
deriving DecidableEq

/-- RealBlockHandler::new: the generator is seeded with the authority index;
every other field starts empty. -/
def RealBlockHandler.new (committee : Committee) (authority : Nat) : RealBlockHandler :=
  ⟨[], [], committee, authority, PreciseHistogram.default, StdRng.seed_from_u64 authority⟩

/-- Insertion into the transaction_time map (HashMap::insert). -/
def timeInsert (m : List (Nat × Nat)) (id at_ : Nat) : List (Nat × Nat) :=
  match m with
  | [] => [(id, at_)]
  | (k, v) :: rest => if k = id then (k, at_) :: rest else (k, v) :: timeInsert rest id at_

/-- Lookup in the transaction_time map (HashMap::get). -/
def timeGet (m : List (Nat × Nat)) (id : Nat) : Option Nat :=
  match m with
  | [] => none
  | (k, v) :: rest => if k = id then some v else timeGet rest id

/-- Latency observation loop shared by both handlers: for every newly
certified id found in the transaction_time map, observe the elapsed time on
the latency histogram. -/
def observeLatencies (hist : PreciseHistogram) (ttime : List (Nat × Nat))
    (now : Nat) (ids : List Nat) : PreciseHistogram :=
  match ids with
  | [] => hist
  | id :: rest =>
      match timeGet ttime id with
      | some instant => observeLatencies (hist.observe (now - instant)) ttime now rest
      | none => observeLatencies hist ttime now rest

/-- Block loop of RealBlockHandler::handle_blocks and
TestBlockHandler::handle_blocks: each block is processed by the aggregator
with the response vector as the vote sink, and certification latencies are
observed.  Returns the final aggregator state, the statements appended to the
response and the updated latency histogram. -/
def processBlocksLoop (s : AggState) (c : Committee) (ttime : List (Nat × Nat))
    (now : Nat) (hist : PreciseHistogram) (blocks : List StatementBlock) :
    AggState × List BaseStatement × PreciseHistogram :=
  match blocks with
  | [] => (s, [], hist)
  | b :: rest =>
      let r := TransactionAggregator.process_block s b true c
      let hist1 := observeLatencies hist ttime now r.2.1
      let r2 := processBlocksLoop r.1 c ttime now hist1 rest
      (r2.1, r.2.2 ++ r2.2.1, r2.2.2)

/-- RealBlockHandler::handle_blocks (block_handler.rs lines 62-85): draw the
next transaction id from the generator, share it, time it, register the
self-echo, then process every incoming block with the response as vote sink.
The wall clock read by TimeInstant::now() is supplied as the explicit
argument now. -/
def RealBlockHandler.handle_blocks (h : RealBlockHandler)
    (blocks : List StatementBlock) (now : Nat) :
    RealBlockHandler × List BaseStatement :=
  let drawn := h.rng.next_u64
  let next := drawn.1
  let ttime := timeInsert h.transaction_time next now
  let votes := TransactionAggregator.register h.transaction_votes next h.authority h.committee
  let r := processBlocksLoop votes h.committee ttime now h.transaction_certified_latency blocks
  ({ h with transaction_votes := r.1,
            transaction_time := ttime,
            transaction_certified_latency := r.2.2,
            rng := drawn.2 },
   BaseStatement.Share next (natToLeBytes next) :: r.2.1)

/-- RealBlockHandler::state: the aggregator snapshot.  Modelled from the spec:
serialization is deterministic and the blob is identified with the serialized
value, since the byte layout is an implementation detail that must only
round-trip exactly. -/
def RealBlockHandler.state (h : RealBlockHandler) : AggState :=
  h.transaction_votes

/-- RealBlockHandler::recover_state: with_state replaces the aggregator
mapping wholesale. -/
def RealBlockHandler.recover_state (h : RealBlockHandler) (s : AggState) :
    RealBlockHandler :=
  { h with transaction_votes := s }

/-! ## TestBlockHandler (block_handler.rs lines 97-180) -/

/-- TestBlockHandler from block_handler.rs. -/
structure TestBlockHandler where
  last_transaction : Nat
  transaction_votes : AggState
  transaction_time : List (Nat × Nat)
  committee : Committee
  authority : Nat
  transaction_certified_latency : PreciseHistogram
deriving DecidableEq

/-- TestBlockHandler::new. -/
def TestBlockHandler.new (last_transaction : Nat) (committee : Committee)
    (authority : Nat) : TestBlockHandler :=
  ⟨last_transaction, [], [], committee, authority, PreciseHistogram.default⟩

/-- TestBlockHandler::is_certified. -/
def TestBlockHandler.is_certified (h : TestBlockHandler) (txid : Nat) : Bool :=
  TransactionAggregator.is_processed h.transaction_votes txid

/-- Inner statement loop of the recovery pass of
TestBlockHandler::handle_blocks: fold max over the Share ids of one block. -/
def shareMaxStmts (a : Nat) (stmts : List BaseStatement) : Nat :=
  match stmts with
  | [] => a
  | .Share id _ :: rest => shareMaxStmts (max a id) rest

/-- Recovery loop at the top of TestBlockHandler::handle_blocks: fold the
maximum of last_transaction and every Share id authored by this handler's own
authority found in the input blocks. -/
def ownShareMax (authority : Nat) (lt : Nat) (blocks : List StatementBlock) : Nat :=
  match blocks with
  | [] => lt
  | b :: rest =>
      ownShareMax authority
        (if b.author = authority then shareMaxStmts lt b.statements else lt) rest

/-- TestBlockHandler::handle_blocks (block_handler.rs lines 129-165): recover
last_transaction from own blocks, increment it, share the new id, time it,
register the self-echo, then process every block with the response as vote
sink.  The counter is a u64, so the increment is reduced modulo 2 ^ 64: at
u64::MAX the release build wraps to 0 (the debug build panics there). -/
def TestBlockHandler.handle_blocks (h : TestBlockHandler)
    (blocks : List StatementBlock) (now : Nat) :
    TestBlockHandler × List BaseStatement :=
  let lt := (ownShareMax h.authority h.last_transaction blocks + 1) % 2 ^ 64
  let ttime := timeInsert h.transaction_time lt now
  let votes := TransactionAggregator.register h.transaction_votes lt h.authority h.committee
  let r := processBlocksLoop votes h.committee ttime now h.transaction_certified_latency blocks
  ({ h with last_transaction := lt,
            transaction_votes := r.1,
            transaction_time := ttime,
            transaction_certified_latency := r.2.2 },
   BaseStatement.Share lt (natToLeBytes lt) :: r.2.1)

/-- TestBlockHandler::state: bincode serialization of the pair (aggregator
snapshot, last_transaction).  Modelled from the spec: serialization is
deterministic and the blob is identified with the serialized value. -/
def TestBlockHandler.state (h : TestBlockHandler) : AggState × Nat :=
  (h.transaction_votes, h.last_transaction)

/-- TestBlockHandler::recover_state: deserialize the pair, replace the
aggregator mapping wholesale and restore last_transaction. -/
def TestBlockHandler.recover_state (h : TestBlockHandler) (s : AggState × Nat) :
    TestBlockHandler :=
  { h with transaction_votes := s.1, last_transaction := s.2 }

/-! ## BlockStore, CommitInterpreter (modelled from the spec, sections 4.1 and 4.5) -/

/-- Modelled from the spec: the BlockStore indexes blocks by their reference;
only the lookup interface matters here, so it is a list of stored blocks. -/
abbrev BlockStore := List StatementBlock

/-- BlockStore::get by reference. -/
def BlockStore.getBlock (store : BlockStore) (r : BlockReference) : Option StatementBlock :=
  match store with
  | [] => none
  | b :: rest => if b.reference = r then some b else BlockStore.getBlock rest r

/-- Ordering key for the deterministic topological order of a causal walk:
round ascending, ties broken by authority index. -/
def blockLe (a b : StatementBlock) : Bool :=
  a.round < b.round || (a.round = b.round && a.author ≤ b.author)

/-- Insertion into a list sorted by blockLe. -/
def insertBlock (x : StatementBlock) (l : List StatementBlock) : List StatementBlock :=
  match l with
  | [] => [x]
  | y :: rest => if blockLe x y then x :: y :: rest else y :: insertBlock x rest

/-- Deterministic sort of a block list by (round, authority). -/
def sortBlocks (l : List StatementBlock) : List StatementBlock :=
  match l with
  | [] => []
  | x :: rest => insertBlock x (sortBlocks rest)

/-- Modelled from the spec: iterative reverse-reachability walk with an
explicit worklist and visited set, stopping at (and excluding) the given
frontier; fuel bounds the recursion. -/
def ancestorWalk (store : BlockStore) (fuel : Nat) (work : List BlockReference)
    (stop visited : List BlockReference) (acc : List StatementBlock) :
    List StatementBlock :=
  match fuel with
  | 0 => acc
  | fuel + 1 =>
      match work with
      | [] => acc
      | r :: rest =>
          if r ∈ stop ∨ r ∈ visited then
            ancestorWalk store fuel rest stop visited acc
          else
            match store.getBlock r with
            | none => ancestorWalk store fuel rest stop (r :: visited) acc
            | some b =>
                ancestorWalk store fuel (b.parents ++ rest) stop (r :: visited) (b :: acc)

/-- Fuel sufficient for the walk: one step per queued reference, where each
stored block can enqueue its parents at most once. -/
def walkFuel (store : BlockStore) : Nat :=
  store.foldl (fun acc b => acc + b.parents.length + 1) 1

/-- Modelled from the spec: linked_ancestors(from, stop_at) returns the blocks
reachable from the given reference that are not behind the stop frontier, in
the deterministic topological order (round ascending, ties by authority). -/
def BlockStore.linked_ancestors (store : BlockStore) (start : BlockReference)
    (stop : List BlockReference) : List StatementBlock :=
  sortBlocks (ancestorWalk store (walkFuel store + 1) [start] stop [] [])

/-- Modelled from the spec: a CommittedSubDag is the committed anchor
reference plus the ordered blocks finalized by that commit. -/
structure CommittedSubDag where
  anchor : BlockReference
  blocks : List StatementBlock
deriving DecidableEq

/-- Modelled from the spec: the CommitInterpreter keeps the set of block
references already committed (the running frontier). -/
structure CommitInterpreter where
  committed : List BlockReference
deriving DecidableEq

/-- CommitInterpreter::new: empty committed frontier. -/
def CommitInterpreter.new : CommitInterpreter := ⟨[]⟩

/-- Modelled from the spec: for each newly committed leader in commit order,
compute its linked ancestors up to the running frontier, mark them committed
and package leader plus newly committed ancestors as one CommittedSubDag. -/
def CommitInterpreter.handle_commit (ci : CommitInterpreter) (store : BlockStore)
    (leaders : List StatementBlock) : CommitInterpreter × List CommittedSubDag :=
  match leaders with
  | [] => (ci, [])
  | l :: rest =>
      let blocks := store.linked_ancestors l.reference ci.committed
      let ci1 : CommitInterpreter := ⟨ci.committed ++ blocks.map StatementBlock.reference⟩
      let r := ci1.handle_commit store rest
      (r.1, ⟨l.reference, blocks⟩ :: r.2)

/-- Modelled from the spec: CommitData is the serializable projection of a
CommittedSubDag, its anchor reference plus the list of block references. -/
structure CommitData where
  anchor : BlockReference
  blocks : List BlockReference
deriving DecidableEq

/-- CommitData::from(&CommittedSubDag): the projection. -/
def CommitData.from (sd : CommittedSubDag) : CommitData :=
  ⟨sd.anchor, sd.blocks.map StatementBlock.reference⟩

/-! ## TestCommitHandler (block_handler.rs lines 183-297) -/

/-- TestCommitHandler from block_handler.rs.  The prometheus metrics object of
update_metrics is an external sink whose state the handler never reads, so it
is not represented; the two latency histograms are. -/
structure TestCommitHandler where
  commit_interpreter : CommitInterpreter
  transaction_votes : AggState
  committee : Committee
  committed_leaders : List BlockReference
  committed_dags : List CommittedSubDag
  transaction_time : List (Nat × Nat)
  certificate_committed_latency : PreciseHistogram
  transaction_committed_latency : PreciseHistogram
deriving DecidableEq

/-- TestCommitHandler::new. -/
def TestCommitHandler.new (committee : Committee)
    (transaction_time : List (Nat × Nat)) : TestCommitHandler :=
  ⟨CommitInterpreter.new, [], committee, [], [], transaction_time,
   PreciseHistogram.default, PreciseHistogram.default⟩

/-- TestCommitHandler::committed_leaders accessor. -/
def TestCommitHandler.committed_leaders_fn (h : TestCommitHandler) : List BlockReference :=
  h.committed_leaders

/-- Share-statement latency loop of TestCommitHandler::handle_commit: for
every Share statement of a committed block whose id is in transaction_time,
observe the commit latency. -/
def observeShareLatencies (hist : PreciseHistogram) (ttime : List (Nat × Nat))
    (now : Nat) (stmts : List BaseStatement) : PreciseHistogram :=
  match stmts with
  | [] => hist
  | .Share id _ :: rest =>
      match timeGet ttime id with
      | some instant => observeShareLatencies (hist.observe (now - instant)) ttime now rest
      | none => observeShareLatencies hist ttime now rest

/-- Per-commit block loop of TestCommitHandler::handle_commit: every block of
the sub-DAG is processed by the aggregator without a sink, and the two latency
histograms are updated. -/
def commitBlocksLoop (s : AggState) (c : Committee) (ttime : List (Nat × Nat))
    (now : Nat) (certHist txnHist : PreciseHistogram) (blocks : List StatementBlock) :
    AggState × PreciseHistogram × PreciseHistogram :=
  match blocks with
  | [] => (s, certHist, txnHist)
  | b :: rest =>
      let r := TransactionAggregator.process_block s b false c
      let certHist1 := observeLatencies certHist ttime now r.2.1
      let txnHist1 := observeShareLatencies txnHist ttime now b.statements
      commitBlocksLoop r.1 c ttime now certHist1 txnHist1 rest

/-- Commit loop of TestCommitHandler::handle_commit: for each sub-DAG in
commit order, push its anchor onto committed_leaders, process its blocks,
append its CommitData projection to the output and retain the sub-DAG. -/
def TestCommitHandler.commitLoop (h : TestCommitHandler) (now : Nat)
    (commits : List CommittedSubDag) : TestCommitHandler × List CommitData :=
  match commits with
  | [] => (h, [])
  | commit :: rest =>
      let r := commitBlocksLoop h.transaction_votes h.committee h.transaction_time now
        h.certificate_committed_latency h.transaction_committed_latency commit.blocks
      let h1 : TestCommitHandler :=
        { h with committed_leaders := h.committed_leaders ++ [commit.anchor],
                 transaction_votes := r.1,
                 certificate_committed_latency := r.2.1,
                 transaction_committed_latency := r.2.2,
                 committed_dags := h.committed_dags ++ [commit] }
      let r2 := h1.commitLoop now rest
      (r2.1, CommitData.from commit :: r2.2)

/-- TestCommitHandler::handle_commit (block_handler.rs lines 246-282): run the
commit interpreter on the newly committed leaders, then fold every produced
sub-DAG into the handler state, returning one CommitData per sub-DAG in
commit order. -/
def TestCommitHandler.handle_commit (h : TestCommitHandler) (store : BlockStore)
    (leaders : List StatementBlock) (now : Nat) :
    TestCommitHandler × List CommitData :=
  let r := h.commit_interpreter.handle_commit store leaders
  TestCommitHandler.commitLoop { h with commit_interpreter := r.1 } now r.2

/-- TestCommitHandler::aggregator_state: the aggregator snapshot. -/
def TestCommitHandler.aggregator_state (h : TestCommitHandler) : AggState :=
  h.transaction_votes

/-- TestCommitHandler::recover_committed (block_handler.rs lines 288-296):
assert the interpreter has not recovered yet; when an aggregator state is
supplied install it, otherwise assert the committed set is empty; finally
install the committed set.  A failed assert! is modelled as none. -/
def TestCommitHandler.recover_committed (h : TestCommitHandler)
    (committed : List BlockReference) (state : Option AggState) :
    Option TestCommitHandler :=
  if h.commit_interpreter.committed = [] then
    match state with
    | some s =>
        some { h with transaction_votes := s,
                      commit_interpreter := ⟨committed⟩ }
    | none =>
        if committed = [] then
          some { h with commit_interpreter := ⟨committed⟩ }
        else none
  else none

/-! ## Helper lemmas -/

theorem commitLoop_leaders (now : Nat) (commits : List CommittedSubDag) :
    ∀ h : TestCommitHandler,
      (h.commitLoop now commits).1.committed_leaders
        = h.committed_leaders ++ commits.map CommittedSubDag.anchor := by
  induction commits with
  | nil => intro h; simp [TestCommitHandler.commitLoop]
  | cons c rest ih =>
      intro h
      simp only [TestCommitHandler.commitLoop, List.map_cons]
      rw [ih]
      simp

theorem commitLoop_data (now : Nat) (commits : List CommittedSubDag) :
    ∀ h : TestCommitHandler,
      (h.commitLoop now commits).2 = commits.map CommitData.from := by
  induction commits with
  | nil => intro h; simp [TestCommitHandler.commitLoop]
  | cons c rest ih =>
      intro h
      simp only [TestCommitHandler.commitLoop, List.map_cons]
      rw [ih]

/-! ## Claims -/

/-- C1 counterexample: on a commit handler whose interpreter has not yet
recovered anything, recover_committed with an empty committed set and a
present aggregator state succeeds, while the claim says such an inconsistent
pair must be rejected. -/
theorem C1_recover_committed_counterexample :
    (TestCommitHandler.recover_committed (TestCommitHandler.new ⟨1⟩ [])
      [] (some [(0, ⟨[0], false⟩)])).isSome = true := by
  decide

/-- C1 (amended): on a commit handler whose interpreter has not yet recovered
any committed set, recovery is rejected exactly when the committed set is
non-empty and the aggregator state is absent; whenever an aggregator state is
present, or both sides are empty, the committed frontier and the supplied
snapshot are installed together (a present state with an empty committed set
is accepted, not rejected). -/
theorem C1_recover_committed_amended (h : TestCommitHandler)
    (committed : List BlockReference) (s : AggState)
    (hfresh : h.commit_interpreter.committed = []) :
    (committed ≠ [] → h.recover_committed committed none = none)
      ∧ h.recover_committed committed (some s)
          = some { h with transaction_votes := s, commit_interpreter := ⟨committed⟩ }
      ∧ h.recover_committed [] none
          = some { h with commit_interpreter := ⟨[]⟩ } := by
  refine ⟨fun hne => ?_, ?_, ?_⟩ <;>
    simp [TestCommitHandler.recover_committed, hfresh]
  intro hc
  exact absurd hc hne

/-- C1 witness: the amended statement evaluated on a fresh handler and a
concrete non-empty committed set without an aggregator state. -/
theorem C1_recover_committed_amended_witness :
    (TestCommitHandler.new ⟨1⟩ []).commit_interpreter.committed = []
      ∧ (([⟨0, 1, 2⟩] : List BlockReference) ≠ []
          → (TestCommitHandler.new ⟨1⟩ []).recover_committed [⟨0, 1, 2⟩] none = none) :=
  ⟨rfl, (C1_recover_committed_amended (TestCommitHandler.new ⟨1⟩ []) [⟨0, 1, 2⟩] [] rfl).1⟩

/-- C2: each handle_commit call leaves the previously recorded committed
leader references untouched and only appends the anchors of the sub-DAGs the
interpreter produced for this cycle, in commit order: the accumulated
sequence grows monotonically and is never reordered or retracted. -/
theorem C2_committed_leaders_monotone (h : TestCommitHandler) (store : BlockStore)
    (leaders : List StatementBlock) (now : Nat) :
    (h.handle_commit store leaders now).1.committed_leaders
      = h.committed_leaders
        ++ ((h.commit_interpreter.handle_commit store leaders).2.map CommittedSubDag.anchor) := by
  unfold TestCommitHandler.handle_commit
  rw [commitLoop_leaders]

/-- C3: exporting the handler state, importing it and exporting again yields
an identical blob, for the test handler and the production handler alike. -/
theorem C3_state_roundtrip (ht : TestBlockHandler) (hr : RealBlockHandler) :
    (ht.recover_state ht.state).state = ht.state
      ∧ (hr.recover_state hr.state).state = hr.state :=
  ⟨rfl, rfl⟩

/-- C5: handle_commit returns exactly one CommitData per CommittedSubDag the
interpreter produced for this cycle, in the same commit order, and each
CommitData is the anchor-plus-block-list projection of its sub-DAG. -/
theorem C5_commit_data_projection (h : TestCommitHandler) (store : BlockStore)
    (leaders : List StatementBlock) (now : Nat) :
    (h.handle_commit store leaders now).2
      = ((h.commit_interpreter.handle_commit store leaders).2).map CommitData.from := by
  unfold TestCommitHandler.handle_commit
  rw [commitLoop_data]

theorem processBlocksLoop_ttime_indep (c : Committee) (now : Nat)
    (blocks : List StatementBlock) :
    ∀ (s : AggState) (t1 t2 : List (Nat × Nat)) (g1 g2 : PreciseHistogram),
      (processBlocksLoop s c t1 now g1 blocks).1
          = (processBlocksLoop s c t2 now g2 blocks).1
        ∧ (processBlocksLoop s c t1 now g1 blocks).2.1
            = (processBlocksLoop s c t2 now g2 blocks).2.1 := by
  induction blocks with
  | nil => intro s t1 t2 g1 g2; exact ⟨rfl, rfl⟩
  | cons b rest ih =>
      intro s t1 t2 g1 g2
      simp only [processBlocksLoop]
      refine ⟨(ih _ _ _ _ _).1, ?_⟩
      rw [(ih _ t1 t2 _ _).2]

/-- C6: the contents of the shared transaction_time map never influence the
base statements a handle_blocks call returns, for the production handler and
the test handler alike: two handler states identical up to that map produce
identical broadcast output. -/
theorem C6_transaction_time_noninterference (hr : RealBlockHandler)
    (ht : TestBlockHandler) (t1 t2 : List (Nat × Nat))
    (blocks : List StatementBlock) (now : Nat) :
    (RealBlockHandler.handle_blocks { hr with transaction_time := t1 } blocks now).2
        = (RealBlockHandler.handle_blocks { hr with transaction_time := t2 } blocks now).2
      ∧ (TestBlockHandler.handle_blocks { ht with transaction_time := t1 } blocks now).2
          = (TestBlockHandler.handle_blocks { ht with transaction_time := t2 } blocks now).2 := by
  constructor
  · simp only [RealBlockHandler.handle_blocks]
    exact congrArg (List.cons _) (processBlocksLoop_ttime_indep _ _ _ _ _ _ _ _).2
  · simp only [TestBlockHandler.handle_blocks]
    exact congrArg (List.cons _) (processBlocksLoop_ttime_indep _ _ _ _ _ _ _ _).2

/-- C7: observing a point through a HistogramSender is a total state
transition that surfaces no error whatever the consumer state (the send
result is discarded, the queue grows only while the receiver is alive), it
never touches the recorded points, and the pending points are handed off to
the histogram only when a percentile query drains the channel. -/
theorem C7_observe_nonblocking (h : PreciseHistogram) (t : Nat) (ps : List Nat) :
    (HistogramSender.observe h t).points = h.points
      ∧ (HistogramSender.observe h t).channel.queue
          = (if h.channel.receiverAlive then h.channel.queue ++ [t] else h.channel.queue)
      ∧ (PreciseHistogram.receive_all h).points = h.points ++ h.channel.queue
      ∧ (h.pcts ps).1.channel.queue = [] := by
  refine ⟨rfl, ?_, rfl, ?_⟩
  · simp only [HistogramSender.observe, HistChannel.send]
    split <;> rfl
  · simp only [PreciseHistogram.pcts]
    split
    · rfl
    · split <;> rfl

theorem insertPoint_length (x : Nat) (l : List Nat) :
    (insertPoint x l).length = l.length + 1 := by
  induction l with
  | nil => rfl
  | cons y rest ih =>
      simp only [insertPoint]
      split <;> simp [ih]

theorem sortPoints_length (l : List Nat) : (sortPoints l).length = l.length := by
  induction l with
  | nil => rfl
  | cons x rest ih => simp [sortPoints, insertPoint_length, ih]

theorem lookupAll_isSome (points : List Nat) (hne : points ≠ [])
    (ps : List Nat) (hp : ∀ p ∈ ps, p < 1000) :
    ∃ l, lookupAll points ps = some l := by
  induction ps with
  | nil => exact ⟨[], rfl⟩
  | cons p rest ih =>
      obtain ⟨l, hl⟩ := ih fun q hq => hp q (List.mem_cons_of_mem _ hq)
      have hlen : 0 < points.length := List.length_pos.mpr hne
      have hidx : pct1000_index points.length p < points.length := by
        unfold pct1000_index
        rw [Nat.div_lt_iff_lt_mul (by norm_num)]
        exact mul_lt_mul_of_pos_left (hp p (List.mem_cons_self _ _)) hlen
      refine ⟨points.get ⟨_, hidx⟩ :: l, ?_⟩
      simp [lookupAll, List.get?_eq_get hidx, hl, List.getElem?_eq_getElem hidx]

/-- C10: a percentile query with every requested value below 1000 on a
histogram whose point set is non-empty after draining the channel always
returns Some, because the computed index is strictly below the number of
points so the element lookup cannot panic; on an empty point set pcts and avg
both return None. -/
theorem C10_pcts_total (h : PreciseHistogram) (ps : List Nat)
    (hp : ∀ p ∈ ps, p < 1000) :
    (h.points ++ h.channel.queue ≠ [] → ∃ l, (h.pcts ps).2 = .ok (some l))
      ∧ (h.points ++ h.channel.queue = [] → (h.pcts ps).2 = .ok none)
      ∧ (h.points = [] → h.avg = .ok none) := by
  refine ⟨fun hne => ?_, fun hemp => ?_, fun hemp => ?_⟩
  · have hrec : (h.receive_all).points = h.points ++ h.channel.queue := rfl
    have hsne : sortPoints ((h.receive_all).points) ≠ [] := by
      intro hcontra
      apply hne
      have hlen := congrArg List.length hcontra
      rw [sortPoints_length, hrec] at hlen
      exact List.length_eq_zero.mp hlen
    obtain ⟨l, hl⟩ := lookupAll_isSome _ hsne ps hp
    have hEmpF : ((h.receive_all).points).isEmpty = false := by
      rw [hrec]
      simpa [List.isEmpty_iff] using hne
    refine ⟨l, ?_⟩
    simp [PreciseHistogram.pcts, hEmpF, hl]
  · have hEmpT : ((h.receive_all).points).isEmpty = true := by
      show ((h.points ++ h.channel.queue).isEmpty = true)
      simp [hemp]
    simp [PreciseHistogram.pcts, hEmpT]
  · simp [PreciseHistogram.avg, hemp]

/-- C10 witness: the theorem evaluated at a histogram with points [5, 3], a
pending queue [7] and percentile requests [0, 500, 999]. -/
theorem C10_pcts_total_witness :
    (∀ p ∈ ([0, 500, 999] : List Nat), p < 1000)
      ∧ ((([5, 3] : List Nat) ++ [7] ≠ [])
          → ∃ l, ((⟨[5, 3], 8, ⟨[7], true⟩⟩ : PreciseHistogram).pcts [0, 500, 999]).2
              = .ok (some l)) :=
  ⟨by decide,
   (C10_pcts_total ⟨[5, 3], 8, ⟨[7], true⟩⟩ [0, 500, 999] (by decide)).1⟩

/-- Echoing authorities currently recorded for a transaction id. -/
def votesOf (s : AggState) (id : Nat) : List Nat :=
  match aggLookup s id with
  | none => []
  | some e => e.votes

theorem aggLookup_aggSet (s : AggState) (id : Nat) (v : TxVotes) :
    aggLookup (aggSet s id v) id = some v := by
  induction s with
  | nil => simp [aggSet, aggLookup]
  | cons kv rest ih =>
      obtain ⟨k, w⟩ := kv
      simp only [aggSet]
      split
      · next hk => simp [aggLookup, hk]
      · next hk => simp [aggLookup, hk, ih]

theorem register_self_echo (s : AggState) (id a : Nat) (c : Committee) :
    a ∈ votesOf (TransactionAggregator.register s id a c) id := by
  unfold TransactionAggregator.register TransactionAggregator.addVote votesOf
  cases hlook : aggLookup s id with
  | none => simp [hlook, aggLookup_aggSet]
  | some e =>
      by_cases hmem : a ∈ e.votes
      · simp [hlook, hmem]
      · by_cases hcert : e.certified
        · simp [hlook, hmem, hcert, aggLookup_aggSet]
        · simp [hlook, hmem, hcert, aggLookup_aggSet]

/-- Echo statements the aggregator queues into the vote sink over a batch of
blocks, in batch order, threading the aggregator state. -/
def collectEchoes (s : AggState) (c : Committee) (blocks : List StatementBlock) :
    List BaseStatement :=
  match blocks with
  | [] => []
  | b :: rest =>
      let r := TransactionAggregator.process_block s b true c
      r.2.2 ++ collectEchoes r.1 c rest

theorem processBlocksLoop_resp (c : Committee) (now : Nat)
    (blocks : List StatementBlock) :
    ∀ (s : AggState) (t : List (Nat × Nat)) (g : PreciseHistogram),
      (processBlocksLoop s c t now g blocks).2.1 = collectEchoes s c blocks := by
  induction blocks with
  | nil => intro s t g; rfl
  | cons b rest ih =>
      intro s t g
      simp only [processBlocksLoop, collectEchoes]
      rw [ih]

/-- C4: a handle_blocks call returns exactly the statements this replica
wants broadcast next: first one Share statement carrying the newly generated
transaction id, which is registered as a self-echo with the aggregator, then
the echo statements process_block queued into the response sink for every
transaction id that became newly certified while processing the batch, for
the production handler and the test handler alike. -/
theorem C4_handle_blocks_output (hr : RealBlockHandler) (ht : TestBlockHandler)
    (blocks : List StatementBlock) (now : Nat) :
    (RealBlockHandler.handle_blocks hr blocks now).2
        = BaseStatement.Share hr.rng.next_u64.1 (natToLeBytes hr.rng.next_u64.1)
            :: collectEchoes
                (TransactionAggregator.register hr.transaction_votes hr.rng.next_u64.1
                  hr.authority hr.committee)
                hr.committee blocks
      ∧ hr.authority ∈ votesOf
          (TransactionAggregator.register hr.transaction_votes hr.rng.next_u64.1
            hr.authority hr.committee) hr.rng.next_u64.1
      ∧ (TestBlockHandler.handle_blocks ht blocks now).2
          = BaseStatement.Share
              ((ownShareMax ht.authority ht.last_transaction blocks + 1) % 2 ^ 64)
              (natToLeBytes
                ((ownShareMax ht.authority ht.last_transaction blocks + 1) % 2 ^ 64))
              :: collectEchoes
                  (TransactionAggregator.register ht.transaction_votes
                    ((ownShareMax ht.authority ht.last_transaction blocks + 1) % 2 ^ 64)
                    ht.authority ht.committee)
                  ht.committee blocks
      ∧ ht.authority ∈ votesOf
          (TransactionAggregator.register ht.transaction_votes
            ((ownShareMax ht.authority ht.last_transaction blocks + 1) % 2 ^ 64)
            ht.authority ht.committee)
          ((ownShareMax ht.authority ht.last_transaction blocks + 1) % 2 ^ 64) := by
  refine ⟨?_, register_self_echo _ _ _ _, ?_, register_self_echo _ _ _ _⟩
  · simp only [RealBlockHandler.handle_blocks]
    rw [processBlocksLoop_resp]
  · simp only [TestBlockHandler.handle_blocks]
    rw [processBlocksLoop_resp]

theorem shareMaxStmts_le (stmts : List BaseStatement) :
    ∀ a : Nat, a ≤ shareMaxStmts a stmts := by
  induction stmts with
  | nil => intro a; exact le_refl a
  | cons st rest ih =>
      intro a
      cases st with
      | Share id tx => exact le_trans (le_max_left a id) (ih (max a id))

theorem shareMaxStmts_mem (stmts : List BaseStatement) :
    ∀ (a id : Nat) (tx : Transaction), BaseStatement.Share id tx ∈ stmts →
      id ≤ shareMaxStmts a stmts := by
  induction stmts with
  | nil => intro a id tx hmem; cases hmem
  | cons st rest ih =>
      intro a id tx hmem
      cases st with
      | Share id0 tx0 =>
          rcases List.mem_cons.mp hmem with heq | hmem2
          · injection heq with h1 h2
            subst h1
            exact le_trans (le_max_right a id) (shareMaxStmts_le rest (max a id))
          · exact ih (max a id0) id tx hmem2

theorem ownShareMax_le (blocks : List StatementBlock) :
    ∀ (a lt : Nat), lt ≤ ownShareMax a lt blocks := by
  induction blocks with
  | nil => intro a lt; exact le_refl lt
  | cons b rest ih =>
      intro a lt
      simp only [ownShareMax]
      refine le_trans ?_ (ih a _)
      split
      · exact shareMaxStmts_le b.statements lt
      · exact le_refl lt

theorem ownShareMax_mem (blocks : List StatementBlock) :
    ∀ (a lt : Nat) (b : StatementBlock), b ∈ blocks → b.author = a →
      ∀ (id : Nat) (tx : Transaction), BaseStatement.Share id tx ∈ b.statements →
        id ≤ ownShareMax a lt blocks := by
  induction blocks with
  | nil => intro a lt b hmem; cases hmem
  | cons b0 rest ih =>
      intro a lt b hmem hauth id tx hst
      simp only [ownShareMax]
      rcases List.mem_cons.mp hmem with heq | hmem2
      · subst heq
        rw [if_pos hauth]
        exact le_trans (shareMaxStmts_mem b.statements lt id tx hst)
          (ownShareMax_le rest a _)
      · exact ih a _ b hmem2 hauth id tx hst

/-- C8 counterexample: with the counter at u64::MAX, a state reachable
through recover_state, the wrapping u64 increment takes last_transaction to
0, so the counter does not strictly increase on this call as the claim
requires. -/
theorem C8_last_transaction_counterexample :
    ¬ ((TestBlockHandler.new (2 ^ 64 - 1) ⟨1⟩ 1).last_transaction
        < ((TestBlockHandler.new (2 ^ 64 - 1) ⟨1⟩ 1).handle_blocks [] 0).1.last_transaction) := by
  decide

/-- C8 (amended): on every handle_blocks call whose incremented counter does
not overflow the u64 range, last_transaction strictly increases, the Share
statement emitted carries exactly the new counter value, that value is
strictly greater than the previous counter and than every Share id authored
by this authority in the input blocks, and a subsequent overflow-free call
emits a strictly larger id again, so shared ids never repeat while the
counter stays below u64::MAX. -/
theorem C8_last_transaction_strictly_increases (h : TestBlockHandler)
    (blocks blocks2 : List StatementBlock) (now now2 : Nat)
    (hof : ownShareMax h.authority h.last_transaction blocks + 1 < 2 ^ 64)
    (hof2 : ownShareMax (h.handle_blocks blocks now).1.authority
        (h.handle_blocks blocks now).1.last_transaction blocks2 + 1 < 2 ^ 64) :
    h.last_transaction < (h.handle_blocks blocks now).1.last_transaction
      ∧ (h.handle_blocks blocks now).2.head?
          = some (BaseStatement.Share (h.handle_blocks blocks now).1.last_transaction
              (natToLeBytes (h.handle_blocks blocks now).1.last_transaction))
      ∧ (∀ b ∈ blocks, b.author = h.authority →
          ∀ (id : Nat) (tx : Transaction), BaseStatement.Share id tx ∈ b.statements →
            id < (h.handle_blocks blocks now).1.last_transaction)
      ∧ (h.handle_blocks blocks now).1.last_transaction
          < ((h.handle_blocks blocks now).1.handle_blocks blocks2 now2).1.last_transaction := by
  have hval : (h.handle_blocks blocks now).1.last_transaction
      = (ownShareMax h.authority h.last_transaction blocks + 1) % 2 ^ 64 := rfl
  have hval2 : ((h.handle_blocks blocks now).1.handle_blocks blocks2 now2).1.last_transaction
      = (ownShareMax (h.handle_blocks blocks now).1.authority
          (h.handle_blocks blocks now).1.last_transaction blocks2 + 1) % 2 ^ 64 := rfl
  refine ⟨?_, rfl, ?_, ?_⟩
  · rw [hval, Nat.mod_eq_of_lt hof]
    exact Nat.lt_succ_of_le (ownShareMax_le blocks h.authority h.last_transaction)
  · intro b hb hauth id tx hst
    rw [hval, Nat.mod_eq_of_lt hof]
    exact Nat.lt_succ_of_le (ownShareMax_mem blocks _ _ b hb hauth id tx hst)
  · rw [hval2, Nat.mod_eq_of_lt hof2]
    exact Nat.lt_succ_of_le (ownShareMax_le blocks2 _ _)

/-- C8 witness: a handler with counter 5 and an own-authored input block
sharing id 10; both calls stay far below the u64 bound and the emitted id
exceeds both the previous counter and the input id. -/
theorem C8_last_transaction_strictly_increases_witness :
    ownShareMax (TestBlockHandler.new 5 ⟨1⟩ 1).authority
        (TestBlockHandler.new 5 ⟨1⟩ 1).last_transaction
        [⟨1, 1, [], [BaseStatement.Share 10 []], 0⟩] + 1 < 2 ^ 64
      ∧ BaseStatement.Share 10 []
          ∈ (⟨1, 1, [], [BaseStatement.Share 10 []], 0⟩ : StatementBlock).statements
      ∧ 10 < ((TestBlockHandler.new 5 ⟨1⟩ 1).handle_blocks
          [⟨1, 1, [], [BaseStatement.Share 10 []], 0⟩] 0).1.last_transaction :=
  ⟨by decide, by decide,
   (C8_last_transaction_strictly_increases (TestBlockHandler.new 5 ⟨1⟩ 1)
      [⟨1, 1, [], [BaseStatement.Share 10 []], 0⟩] [] 0 0
      (by decide) (by decide)).2.2.1
     ⟨1, 1, [], [BaseStatement.Share 10 []], 0⟩ (by decide) rfl 10 [] (by decide)⟩

/-- First Share id of a handle_blocks response. -/
def firstShareId (resp : List BaseStatement) : Option Nat :=
  match resp with
  | [] => none
  | .Share id _ :: _ => some id

/-- Sequence of transaction ids a production handler emits in its Share
statements over a run of handle_blocks calls. -/
def RealBlockHandler.runShareIds (h : RealBlockHandler)
    (batches : List (List StatementBlock)) (now : Nat) : List (Option Nat) :=
  match batches with
  | [] => []
  | bs :: rest =>
      let r := h.handle_blocks bs now
      firstShareId r.2 :: r.1.runShareIds rest now

theorem runShareIds_rng (batches1 : List (List StatementBlock)) :
    ∀ (batches2 : List (List StatementBlock)) (h1 h2 : RealBlockHandler),
      h1.rng = h2.rng → batches1.length = batches2.length →
      ∀ n1 n2 : Nat, h1.runShareIds batches1 n1 = h2.runShareIds batches2 n2 := by
  induction batches1 with
  | nil =>
      intro batches2 h1 h2 hrng hlen n1 n2
      cases batches2 with
      | nil => rfl
      | cons bs2 rest2 => simp at hlen
  | cons bs rest ih =>
      intro batches2 h1 h2 hrng hlen n1 n2
      cases batches2 with
      | nil => simp at hlen
      | cons bs2 rest2 =>
          simp only [RealBlockHandler.runShareIds]
          have hhead : firstShareId (h1.handle_blocks bs n1).2
              = firstShareId (h2.handle_blocks bs2 n2).2 := by
            show some h1.rng.next_u64.1 = some h2.rng.next_u64.1
            rw [hrng]
          have hrng2 : (h1.handle_blocks bs n1).1.rng
              = (h2.handle_blocks bs2 n2).1.rng := by
            show h1.rng.next_u64.2 = h2.rng.next_u64.2
            rw [hrng]
          rw [hhead, ih rest2 _ _ hrng2 (by simpa using hlen) n1 n2]

/-- C9: two production handlers constructed for the same authority index emit
identical Share transaction-id sequences over the same number of
handle_blocks calls, whatever blocks they process, because the generator is
seeded deterministically with the authority index and advances once per
call. -/
theorem C9_share_ids_deterministic (a : Nat) (c1 c2 : Committee)
    (batches1 batches2 : List (List StatementBlock)) (n1 n2 : Nat)
    (hlen : batches1.length = batches2.length) :
    (RealBlockHandler.new c1 a).runShareIds batches1 n1
      = (RealBlockHandler.new c2 a).runShareIds batches2 n2 :=
  runShareIds_rng batches1 batches2 (RealBlockHandler.new c1 a)
    (RealBlockHandler.new c2 a) rfl hlen n1 n2

/-- C9 witness: authority 3, one call each, with different committees, clock
values and input blocks. -/
theorem C9_share_ids_deterministic_witness :
    ([[]] : List (List StatementBlock)).length
        = ([[⟨0, 1, [], [], 0⟩]] : List (List StatementBlock)).length
      ∧ (RealBlockHandler.new ⟨1⟩ 3).runShareIds [[]] 0
          = (RealBlockHandler.new ⟨2⟩ 3).runShareIds [[⟨0, 1, [], [], 0⟩]] 7 :=
  ⟨rfl, C9_share_ids_deterministic 3 ⟨1⟩ ⟨2⟩ [[]] [[⟨0, 1, [], [], 0⟩]] 0 7 rfl⟩
